import Mathlib

/-!
Verification of the blackjack tabular-RL repository.

This file gives a shallow embedding, in Lean, of the core of the repository:
the `Environment` state machine of `sim/environment.py`, the Monte Carlo
agent's value update of `rl/tabular.py`, the SARSA agent's value update of
`rl/sarsa.py`, and the value-table persistence helpers of
`scripts/tabular.py`.  All definitions are direct translations of the Python
source; Python floats are rendered as rationals (`ℚ`), Python lists as Lean
lists, and Python dicts as association lists.  The single source of
randomness, `random.shuffle`, is made explicit: an environment carries a
stream `shuffles : ℕ → List ℕ` of the decks produced by successive
reshuffles (each of which, in the real program, is a permutation of the
fresh 52-card deck), together with the index of the next reshuffle.
-/

/-! ## Deck and hand model (`sim/environment.py`) -/

/-- The unshuffled deck of `_create_deck`:
`[1, 2, 3, 4, 5, 6, 7, 8, 9, 10, 10, 10, 10] * 4`.  `random.shuffle` then
permutes it, so a freshly created deck is exactly a permutation of this
list. -/
def freshDeck : List ℕ :=
  [1, 2, 3, 4, 5, 6, 7, 8, 9, 10, 10, 10, 10] ++
  [1, 2, 3, 4, 5, 6, 7, 8, 9, 10, 10, 10, 10] ++
  [1, 2, 3, 4, 5, 6, 7, 8, 9, 10, 10, 10, 10] ++
  [1, 2, 3, 4, 5, 6, 7, 8, 9, 10, 10, 10, 10]

/-- `Environment._hand_value`: the total value of a hand and whether it has a
usable ace.  `total = sum(hand)`; `usable_ace = 1 in hand and total + 10 <= 21`;
if usable, `total += 10`. -/
def handValue (hand : List ℕ) : ℕ × Bool :=
  let total := hand.sum
  if 1 ∈ hand ∧ total + 10 ≤ 21 then (total + 10, true) else (total, false)

/-- `Environment._deck_composition`: a map from card value to remaining count,
`{value: deck.count(value) for value in set(deck)}` (iteration order of the
Python `set` is arbitrary; we fix the first-occurrence order). -/
def deckCompositionOf (deck : List ℕ) : List (ℕ × ℕ) :=
  deck.dedup.map (fun v => (v, deck.count v))

/-- The mutable state of `Environment` (`__init__` fields), with the
randomness of `random.shuffle` made explicit in `shuffles`/`shuffleIdx`:
the `k`-th reshuffle performed by `_create_deck` yields `shuffles k`. -/
structure Env where
  multiRoundMode : Bool
  standPenaltyDecay : ℚ
  standPenalty : ℚ
  deck : List ℕ
  playerHand : List ℕ
  dealerHand : List ℕ
  done : Bool
  reward : ℚ
  shuffles : ℕ → List ℕ
  shuffleIdx : ℕ

/-- The observation dictionary built by `reset`/`step`:
`player_total`, `usable_ace`, `dealer_card`, `hand_count`, and (in
multi-round mode only) `deck_composition`. -/
structure Obs where
  playerTotal : ℕ
  usableAce : Bool
  dealerCard : ℕ
  handCount : ℕ
  deckComposition : Option (List (ℕ × ℕ))

/-- The observation built from the current environment state.
`dealer_card = self.dealer_hand[0]` is rendered with a default of `0` for
the empty hand (in Python that indexing would fail; every dealt round has a
two-card dealer hand, and the theorems below that depend on this field
assume a non-empty dealer hand). -/
def obsOf (e : Env) : Obs :=
  { playerTotal := (handValue e.playerHand).1
    usableAce := (handValue e.playerHand).2
    dealerCard := e.dealerHand.headD 0
    handCount := e.playerHand.length
    deckComposition :=
      if e.multiRoundMode then some (deckCompositionOf e.deck) else none }

/-- `Environment._draw_card`: if the deck is empty it is regenerated by
`_create_deck` (the next entry of the shuffle stream); then
`self.deck.pop()` removes and returns the LAST card. -/
def drawCard (e : Env) : ℕ × Env :=
  if e.deck.isEmpty then
    let d := e.shuffles e.shuffleIdx
    (d.getLast?.getD 0,
      { e with deck := d.dropLast, shuffleIdx := e.shuffleIdx + 1 })
  else
    (e.deck.getLast?.getD 0, { e with deck := e.deck.dropLast })

/-- The dealer's drawing loop inside `step` (action 1):
`while dealer_total < 17: self.dealer_hand.append(self._draw_card())`.
The Python loop is unbounded; here it is written with explicit fuel.
Each drawn card of a real deck is ≥ 1, so the loop runs at most 15 times
(the hand total is < 17 on entry of every iteration and grows by at least 1
per draw); fuel `17` therefore reproduces the loop exactly on every
well-formed environment (see `dealerDraw_ge17`). -/
def dealerDraw : ℕ → Env → Env
  | 0, e => e
  | fuel + 1, e =>
    if (handValue e.dealerHand).1 < 17 then
      let ce := drawCard e
      dealerDraw fuel { ce.2 with dealerHand := ce.2.dealerHand ++ [ce.1] }
    else e

/-- Fuel bound for `dealerDraw`; see its doc comment. -/
def dealerFuel : ℕ := 17

/-- The Hit branch of `step` (action 0): draw one card into the player's
hand; if the new total exceeds 21 the round ends with reward −1, otherwise
the reward is 0. -/
def stepHit (e : Env) : Env :=
  let ce := drawCard e
  let hand := ce.2.playerHand ++ [ce.1]
  let e1 := { ce.2 with playerHand := hand }
  if 21 < (handValue hand).1 then { e1 with done := true, reward := -1 }
  else { e1 with reward := 0 }

/-- The stand-penalty part of the Stand branch: if the player total is below
13, `self.reward -= self.stand_penalty * (13 - player_total)`. -/
def standPenaltyApplied (e : Env) : ℚ :=
  let pt := (handValue e.playerHand).1
  if pt < 13 then e.reward - e.standPenalty * ((13 : ℚ) - (pt : ℚ))
  else e.reward

/-- The Stand branch of `step` (action 1): apply the stand penalty, mark the
round done, resolve the dealer, then settle the outcome:
dealer bust or player total > dealer total → win (+2 for a two-card 21,
+1.5 for a longer 21, +1 otherwise); player total < dealer total → −1;
equal totals → no change. -/
def stepStand (e : Env) : Env :=
  let pt := (handValue e.playerHand).1
  let e1 := { e with done := true, reward := standPenaltyApplied e }
  let e2 := dealerDraw dealerFuel e1
  let dt := (handValue e2.dealerHand).1
  if 21 < dt ∨ dt < pt then
    if pt = 21 then
      if e2.playerHand.length = 2 then { e2 with reward := e2.reward + 2 }
      else { e2 with reward := e2.reward + 3 / 2 }
    else { e2 with reward := e2.reward + 1 }
  else if pt < dt then { e2 with reward := e2.reward - 1 }
  else e2

/-- `Environment.step`: raises `ValueError` on a finished round; otherwise
runs the Hit branch for action 0, the Stand branch for action 1, and falls
through for any other action value; in all non-raising cases the stand
penalty then decays by `(1 - stand_penalty_decay)` and the method returns
`(state, self.reward, self.done, None)`.  The returned environment makes the
Python in-place mutation explicit. -/
def step (e : Env) (action : ℤ) : Except String (Env × Obs × ℚ × Bool) :=
  if e.done then
    Except.error "Episode has ended. Please reset the environment."
  else
    let e1 := if action = 0 then stepHit e
              else if action = 1 then stepStand e
              else e
    let e2 := { e1 with standPenalty := e1.standPenalty * (1 - e1.standPenaltyDecay) }
    Except.ok (e2, obsOf e2, e2.reward, e2.done)

/-- `Environment.reset`: deal two cards to the player and two to the dealer,
clear `done` and `reward`, and return the initial observation. -/
def reset (e : Env) : Env × Obs :=
  let c1 := drawCard e
  let c2 := drawCard c1.2
  let c3 := drawCard c2.2
  let c4 := drawCard c3.2
  let e5 := { c4.2 with playerHand := [c1.1, c2.1],
                        dealerHand := [c3.1, c4.1],
                        done := false, reward := 0 }
  (e5, obsOf e5)

/-- The default composition used by `probability_of_bust` when no
composition is supplied: `{value: 4 for value in [1, ..., 10]}` — four cards
of every rank including rank 10, i.e. 40 cards in total. -/
def defaultComposition : List (ℕ × ℕ) :=
  [(1, 4), (2, 4), (3, 4), (4, 4), (5, 4), (6, 4), (7, 4), (8, 4), (9, 4), (10, 4)]

/-- `Environment.probability_of_bust`: the fraction of remaining cards whose
rank `c` satisfies `player_total + c > 21`, over the given composition, or
over `defaultComposition` when none is given; `0.0` when no cards remain.
The method reads no mutable environment state, so it is a plain function
here. -/
def probabilityOfBust (playerTotal : ℕ) (comp? : Option (List (ℕ × ℕ))) : ℚ :=
  let comp := comp?.getD defaultComposition
  let totalCards : ℕ := (comp.map Prod.snd).sum
  if totalCards = 0 then 0
  else (((comp.filter (fun p => 21 < playerTotal + p.1)).map Prod.snd).sum : ℚ) / (totalCards : ℚ)

/-! ## Sample environments (used by the concrete witnesses below) -/

/-- A shuffle stream whose every reshuffle returns the fresh deck unshuffled
(the identity permutation is one possible output of `random.shuffle`). -/
def sampleShuffles : ℕ → List ℕ := fun _ => freshDeck

/-- A live (non-terminal) dealt round: player 20 vs dealer showing 5. -/
def sampleEnv : Env :=
  { multiRoundMode := false
    standPenaltyDecay := 1 / 1000
    standPenalty := 1 / 10
    deck := [10, 9, 5, 4, 3]
    playerHand := [10, 10]
    dealerHand := [5, 2]
    done := false
    reward := 0
    shuffles := sampleShuffles
    shuffleIdx := 0 }

/-- A finished round (`done = true`). -/
def sampleEnvDone : Env := { sampleEnv with done := true }

/-! ## Claim theorems about the hand model and `probability_of_bust` -/

/-- C6: for every hand, the computed value is the rank sum plus 10 exactly
when the hand holds an Ace and the adjusted total stays ≤ 21; hence the
value lies in `[sum, sum + 10]`, and the usable-ace flag is true iff an Ace
is present and `sum + 10 ≤ 21`. -/
theorem hand_value_spec (hand : List ℕ) :
    ((handValue hand).1 =
      if 1 ∈ hand ∧ hand.sum + 10 ≤ 21 then hand.sum + 10 else hand.sum) ∧
    hand.sum ≤ (handValue hand).1 ∧ (handValue hand).1 ≤ hand.sum + 10 ∧
    ((handValue hand).2 = true ↔ 1 ∈ hand ∧ hand.sum + 10 ≤ 21) := by
  simp only [handValue]
  split_ifs with h
  · exact ⟨rfl, Nat.le_add_right _ _, le_refl _, by simp [h]⟩
  · exact ⟨rfl, le_refl _, Nat.le_add_right _ _, by simpa using h⟩

/-- C2: the composition `probability_of_bust` substitutes when none is given
is four cards of every rank 1–10 (40 cards), not the fresh-deck composition
(which has sixteen rank-10 cards among 52): at total 12 the code yields
4/40 = 1/10, while the fresh-deck composition yields 16/52. -/
theorem bust_probability_default_mismatch :
    probabilityOfBust 12 none = 1 / 10 ∧
    probabilityOfBust 12 (some (deckCompositionOf freshDeck)) = 16 / 52 ∧
    (1 : ℚ) / 10 ≠ 16 / 52 := by
  refine ⟨?_, ?_, by norm_num⟩
  · norm_num [probabilityOfBust, defaultComposition]
  · have h : deckCompositionOf freshDeck =
      [(1, 4), (2, 4), (3, 4), (4, 4), (5, 4), (6, 4), (7, 4), (8, 4), (9, 4), (10, 16)] := by
      decide
    rw [h]
    norm_num [probabilityOfBust]

/-- C3: calling `step` on a terminal round (`done = true`) raises the
invalid-state `ValueError` for every action; no successor state is
produced, so the environment is untouched. -/
theorem step_terminal_raises (e : Env) (a : ℤ) (h : e.done = true) :
    step e a = Except.error "Episode has ended. Please reset the environment." := by
  simp [step, h]

/-- Witness for C3 at a concrete finished round. -/
theorem step_terminal_raises_wit :
    sampleEnvDone.done = true ∧
    step sampleEnvDone 0 = Except.error "Episode has ended. Please reset the environment." :=
  ⟨rfl, step_terminal_raises sampleEnvDone 0 rfl⟩

/-! ## Frame and well-formedness lemmas for the environment -/

@[simp] lemma drawCard_playerHand (e : Env) : (drawCard e).2.playerHand = e.playerHand := by
  unfold drawCard; split <;> rfl

@[simp] lemma drawCard_dealerHand (e : Env) : (drawCard e).2.dealerHand = e.dealerHand := by
  unfold drawCard; split <;> rfl

@[simp] lemma drawCard_done (e : Env) : (drawCard e).2.done = e.done := by
  unfold drawCard; split <;> rfl

@[simp] lemma drawCard_reward (e : Env) : (drawCard e).2.reward = e.reward := by
  unfold drawCard; split <;> rfl

@[simp] lemma drawCard_standPenalty (e : Env) : (drawCard e).2.standPenalty = e.standPenalty := by
  unfold drawCard; split <;> rfl

@[simp] lemma drawCard_standPenaltyDecay (e : Env) :
    (drawCard e).2.standPenaltyDecay = e.standPenaltyDecay := by
  unfold drawCard; split <;> rfl

@[simp] lemma drawCard_shuffles (e : Env) : (drawCard e).2.shuffles = e.shuffles := by
  unfold drawCard; split <;> rfl

/-- The dealer loop only touches the dealer hand, the deck and the shuffle
index: the player hand is untouched. -/
lemma dealerDraw_playerHand : ∀ (f : ℕ) (e : Env), (dealerDraw f e).playerHand = e.playerHand
  | 0, _ => rfl
  | f + 1, e => by
    unfold dealerDraw
    split
    · rw [dealerDraw_playerHand f]; simp
    · rfl

lemma dealerDraw_done : ∀ (f : ℕ) (e : Env), (dealerDraw f e).done = e.done
  | 0, _ => rfl
  | f + 1, e => by
    unfold dealerDraw
    split
    · rw [dealerDraw_done f]; simp
    · rfl

lemma dealerDraw_reward : ∀ (f : ℕ) (e : Env), (dealerDraw f e).reward = e.reward
  | 0, _ => rfl
  | f + 1, e => by
    unfold dealerDraw
    split
    · rw [dealerDraw_reward f]; simp
    · rfl

lemma dealerDraw_standPenalty : ∀ (f : ℕ) (e : Env),
    (dealerDraw f e).standPenalty = e.standPenalty
  | 0, _ => rfl
  | f + 1, e => by
    unfold dealerDraw
    split
    · rw [dealerDraw_standPenalty f]; simp
    · rfl

lemma dealerDraw_standPenaltyDecay : ∀ (f : ℕ) (e : Env),
    (dealerDraw f e).standPenaltyDecay = e.standPenaltyDecay
  | 0, _ => rfl
  | f + 1, e => by
    unfold dealerDraw
    split
    · rw [dealerDraw_standPenaltyDecay f]; simp
    · rfl

/-- A dealer already at 17 or more draws nothing. -/
lemma dealerDraw_eq_self (f : ℕ) (e : Env) (h : 17 ≤ (handValue e.dealerHand).1) :
    dealerDraw f e = e := by
  cases f with
  | zero => rfl
  | succ f => unfold dealerDraw; rw [if_neg (by omega)]

/-- Every card of the deck is a real card rank (≥ 1). -/
def DeckWF (e : Env) : Prop := ∀ c ∈ e.deck, 1 ≤ c

/-- Every reshuffle produced by `random.shuffle` is a permutation of the
fresh 52-card deck. -/
def ShufflesWF (e : Env) : Prop := ∀ k, (e.shuffles k).Perm freshDeck

lemma freshDeck_pos : ∀ c ∈ freshDeck, 1 ≤ c := by decide

lemma mem_of_mem_dropLast {α : Type} {x : α} : ∀ {l : List α}, x ∈ l.dropLast → x ∈ l := by
  intro l hx
  rcases List.eq_nil_or_concat l with rfl | ⟨l', b, rfl⟩
  · simp at hx
  · rw [List.concat_eq_append, List.dropLast_concat] at hx
    rw [List.concat_eq_append]
    exact List.mem_append_left _ hx

lemma getLastD_mem {l : List ℕ} (h : l ≠ []) : l.getLast?.getD 0 ∈ l := by
  rw [List.getLast?_eq_getLast_of_ne_nil h]
  exact List.getLast_mem h

/-- Drawing from a well-formed environment yields a card of rank ≥ 1 and
preserves well-formedness. -/
lemma drawCard_spec (e : Env) (hd : DeckWF e) (hs : ShufflesWF e) :
    1 ≤ (drawCard e).1 ∧ DeckWF (drawCard e).2 ∧ ShufflesWF (drawCard e).2 := by
  unfold drawCard
  split
  · have hperm := hs e.shuffleIdx
    have hne : e.shuffles e.shuffleIdx ≠ [] := by
      intro h0
      have hl := hperm.length_eq
      rw [h0] at hl
      simp [freshDeck] at hl
    refine ⟨?_, ?_, ?_⟩
    · exact freshDeck_pos _ (hperm.mem_iff.mp (getLastD_mem hne))
    · intro c hc
      exact freshDeck_pos _ (hperm.mem_iff.mp (mem_of_mem_dropLast hc))
    · intro k; exact hs k
  · rename_i hne
    have hne' : e.deck ≠ [] := by
      intro h0; exact hne (by simp [h0])
    refine ⟨hd _ (getLastD_mem hne'), ?_, ?_⟩
    · intro c hc
      exact hd _ (mem_of_mem_dropLast hc)
    · intro k; exact hs k

lemma sum_le_handValue (h : List ℕ) : h.sum ≤ (handValue h).1 := by
  simp only [handValue]
  split_ifs <;> simp

/-- With well-formed decks, `dealerDraw` with enough fuel always reaches a
hand value of at least 17 — in particular, fuel 17 always suffices, so the
fueled recursion is exactly the Python `while` loop. -/
lemma dealerDraw_ge17 : ∀ (f : ℕ) (e : Env), DeckWF e → ShufflesWF e →
    17 ≤ e.dealerHand.sum + f → 17 ≤ (handValue (dealerDraw f e).dealerHand).1 := by
  intro f
  induction f with
  | zero =>
    intro e _ _ hf
    exact le_trans (by omega) (sum_le_handValue e.dealerHand)
  | succ f ih =>
    intro e hd hs hf
    unfold dealerDraw
    split
    · obtain ⟨hc, hd', hs'⟩ := drawCard_spec e hd hs
      apply ih { (drawCard e).2 with dealerHand := (drawCard e).2.dealerHand ++ [(drawCard e).1] }
      · exact hd'
      · exact hs'
      · have hsum : ((drawCard e).2.dealerHand ++ [(drawCard e).1]).sum
            = e.dealerHand.sum + (drawCard e).1 := by
          simp
        simp only [hsum]
        omega
    · omega

/-! ## The Stand branch: reward formula and dealer postcondition -/

/-- The penalty the claim describes: `stand_penalty × (13 − player_total)`
when the player total is below 13, and 0 otherwise. -/
def standPenaltyAmount (penalty : ℚ) (pt : ℕ) : ℚ :=
  if pt < 13 then penalty * ((13 : ℚ) - (pt : ℚ)) else 0

/-- The outcome value the claim describes: +2 for a player win with a
two-card 21, +1.5 for a win with a longer 21, +1 for any other win (dealer
bust or higher player total), −1 when the player total is below the
dealer's, and 0 on equal totals. -/
def standOutcome (pt dt n : ℕ) : ℚ :=
  if 21 < dt ∨ dt < pt then
    if pt = 21 then (if n = 2 then 2 else 3 / 2) else 1
  else if pt < dt then -1
  else 0

lemma standPenaltyApplied_eq (e : Env) :
    standPenaltyApplied e =
      e.reward - standPenaltyAmount e.standPenalty ((handValue e.playerHand).1) := by
  simp only [standPenaltyApplied, standPenaltyAmount]
  split_ifs <;> ring

/-- The environment after the penalty is applied and the round is marked
done, just before the dealer draws. -/
def standMid (e : Env) : Env :=
  { e with done := true, reward := standPenaltyApplied e }

lemma stepStand_dealerHand (e : Env) :
    (stepStand e).dealerHand = (dealerDraw dealerFuel (standMid e)).dealerHand := by
  simp only [stepStand, standMid]
  split_ifs <;> rfl

lemma stepStand_playerHand (e : Env) : (stepStand e).playerHand = e.playerHand := by
  simp only [stepStand]
  split_ifs <;> simp [dealerDraw_playerHand, standMid]

lemma stepStand_done (e : Env) : (stepStand e).done = true := by
  have h := dealerDraw_done dealerFuel (standMid e)
  simp only [stepStand]
  split_ifs <;> simpa [standMid] using h

lemma stepStand_reward (e : Env) :
    (stepStand e).reward = standPenaltyApplied e +
      standOutcome ((handValue e.playerHand).1)
        ((handValue (dealerDraw dealerFuel (standMid e)).dealerHand).1)
        e.playerHand.length := by
  have hrw : (dealerDraw dealerFuel (standMid e)).reward = standPenaltyApplied e := by
    simpa [standMid] using dealerDraw_reward dealerFuel (standMid e)
  have hph : (dealerDraw dealerFuel (standMid e)).playerHand = e.playerHand := by
    simpa [standMid] using dealerDraw_playerHand dealerFuel (standMid e)
  simp only [stepStand, standOutcome, standMid] at hrw hph ⊢
  rw [hph]
  split_ifs
  all_goals simp [hrw]
  all_goals try ring

/-! ## Step-level helper lemmas -/

lemma step_done_error (e : Env) (a : ℤ) (h : e.done = true) :
    step e a = Except.error "Episode has ended. Please reset the environment." := by
  simp [step, h]

lemma step_ok_of_not_done (e : Env) (a : ℤ) (h : e.done = false) :
    ∃ out, step e a = Except.ok out := by
  simp only [step, h, Bool.false_eq_true, if_false]
  exact ⟨_, rfl⟩

/-- The environment returned by a Stand step: the Stand branch followed by
the stand-penalty decay of the common tail. -/
def standFinal (e : Env) : Env :=
  { stepStand e with
    standPenalty := (stepStand e).standPenalty * (1 - (stepStand e).standPenaltyDecay) }

lemma step_stand_eq (e : Env) (h : e.done = false) :
    step e 1 = Except.ok (standFinal e, obsOf (standFinal e), (standFinal e).reward, true) := by
  have hdone := stepStand_done e
  simp only [step, h, Bool.false_eq_true, if_false, standFinal]
  norm_num [hdone]

/-! ## Claim theorems about `step` -/

/-- C4: a Stand on a live round (stored reward 0, as on every reachable live
round) terminates the round and returns exactly the claimed outcome value
minus the claimed penalty, where the dealer total is read off the returned
environment's dealer hand. -/
theorem stand_reward_formula (e : Env) (hdone : e.done = false) (hr : e.reward = 0) :
    ∃ e' st r, step e 1 = Except.ok (e', st, r, true) ∧
      r = standOutcome ((handValue e.playerHand).1) ((handValue e'.dealerHand).1)
            e.playerHand.length
          - standPenaltyAmount e.standPenalty ((handValue e.playerHand).1) := by
  refine ⟨standFinal e, obsOf (standFinal e), (standFinal e).reward, step_stand_eq e hdone, ?_⟩
  have h1 : (standFinal e).reward = (stepStand e).reward := rfl
  have h2 : (standFinal e).dealerHand = (stepStand e).dealerHand := rfl
  rw [h1, h2, stepStand_reward, standPenaltyApplied_eq, hr, stepStand_dealerHand]
  ring

/-- Witness for C4: a concrete live round (player 20, dealer 5+2, reward 0). -/
theorem stand_reward_formula_wit :
    ∃ e' st r, step sampleEnv 1 = Except.ok (e', st, r, true) ∧
      r = standOutcome ((handValue sampleEnv.playerHand).1) ((handValue e'.dealerHand).1)
            sampleEnv.playerHand.length
          - standPenaltyAmount sampleEnv.standPenalty ((handValue sampleEnv.playerHand).1) :=
  stand_reward_formula sampleEnv rfl rfl

/-- C7: resolving a Stand on a live, well-formed round leaves the dealer at
a hand value of at least 17, and a dealer already at 17 or more draws no
card at all. -/
theorem dealer_resolution_ge17 (e : Env) (hdone : e.done = false)
    (hd : DeckWF e) (hs : ShufflesWF e) :
    ∃ e' st r d, step e 1 = Except.ok (e', st, r, d) ∧
      17 ≤ (handValue e'.dealerHand).1 ∧
      (17 ≤ (handValue e.dealerHand).1 → e'.dealerHand = e.dealerHand) := by
  refine ⟨standFinal e, obsOf (standFinal e), (standFinal e).reward, true,
    step_stand_eq e hdone, ?_, ?_⟩
  · have h2 : (standFinal e).dealerHand = (stepStand e).dealerHand := rfl
    rw [h2, stepStand_dealerHand]
    apply dealerDraw_ge17 dealerFuel (standMid e)
    · exact hd
    · exact hs
    · exact Nat.le_add_left 17 _
  · intro h17
    have h2 : (standFinal e).dealerHand = (stepStand e).dealerHand := rfl
    rw [h2, stepStand_dealerHand, dealerDraw_eq_self dealerFuel (standMid e) h17]
    rfl

/-- Witness for C7 at a concrete well-formed live round. -/
theorem dealer_resolution_ge17_wit :
    ∃ e' st r d, step sampleEnv 1 = Except.ok (e', st, r, d) ∧
      17 ≤ (handValue e'.dealerHand).1 ∧
      (17 ≤ (handValue sampleEnv.dealerHand).1 → e'.dealerHand = sampleEnv.dealerHand) :=
  dealer_resolution_ge17 sampleEnv rfl (by unfold DeckWF; decide) (fun _ => List.Perm.refl _)

/-- C10: on a live round `step` accepts any action value without error — an
action other than 0 and 1 leaves hands, deck and the done flag unchanged,
returns the stored reward, and still decays the stand penalty — and `step`
raises the invalid-state error exactly when `done` is true. -/
theorem step_unknown_action (e : Env) (a : ℤ) :
    (e.done = false → a ≠ 0 → a ≠ 1 →
      step e a = Except.ok
        ({ e with standPenalty := e.standPenalty * (1 - e.standPenaltyDecay) },
         obsOf { e with standPenalty := e.standPenalty * (1 - e.standPenaltyDecay) },
         e.reward, false)) ∧
    ((∃ msg, step e a = Except.error msg) ↔ e.done = true) := by
  constructor
  · intro hdone h0 h1
    simp [step, hdone, h0, h1]
  · constructor
    · rintro ⟨msg, hmsg⟩
      by_contra hne
      have hdone : e.done = false := by
        cases hv : e.done
        · rfl
        · exact absurd hv hne
      obtain ⟨out, hout⟩ := step_ok_of_not_done e a hdone
      rw [hout] at hmsg
      cases hmsg
    · intro h
      exact ⟨_, step_done_error e a h⟩

/-- Witness for C10 (it has no standing hypotheses, only conditionals;
instantiated at a concrete live round and action 5). -/
theorem step_unknown_action_wit :
    (sampleEnv.done = false → (5 : ℤ) ≠ 0 → (5 : ℤ) ≠ 1 →
      step sampleEnv 5 = Except.ok
        ({ sampleEnv with
            standPenalty := sampleEnv.standPenalty * (1 - sampleEnv.standPenaltyDecay) },
         obsOf { sampleEnv with
            standPenalty := sampleEnv.standPenalty * (1 - sampleEnv.standPenaltyDecay) },
         sampleEnv.reward, false)) ∧
    ((∃ msg, step sampleEnv 5 = Except.error msg) ↔ sampleEnv.done = true) :=
  step_unknown_action sampleEnv 5

/-! ## Association-list dictionaries (Python `dict` / `defaultdict`) -/

/-- Dictionary lookup with a default for a missing key. -/
def lookupD {κ β : Type} [DecidableEq κ] : List (κ × β) → κ → β → β
  | [], _, d => d
  | (k₀, v) :: rest, k, d => if k₀ = k then v else lookupD rest k d

/-- Dictionary update: modify the entry at `k` with `f`, materialising it
from `init` when missing (Python `defaultdict` semantics; for a plain dict
the caller materialises explicitly, which has the same effect). -/
def updateEntry {κ β : Type} [DecidableEq κ] (init : β) (f : β → β) :
    List (κ × β) → κ → List (κ × β)
  | [], k => [(k, f init)]
  | (k₀, v) :: rest, k =>
    if k₀ = k then (k₀, f v) :: rest else (k₀, v) :: updateEntry init f rest k

lemma lookupD_updateEntry_self {κ β : Type} [DecidableEq κ] (init : β) (f : β → β) :
    ∀ (t : List (κ × β)) (k : κ), lookupD (updateEntry init f t k) k init = f (lookupD t k init)
  | [], k => by simp [lookupD, updateEntry]
  | (k₀, v) :: rest, k => by
    by_cases h : k₀ = k
    · simp [lookupD, updateEntry, h]
    · simp [lookupD, updateEntry, h, lookupD_updateEntry_self init f rest k]

lemma lookupD_updateEntry_ne {κ β : Type} [DecidableEq κ] (init d : β) (f : β → β) :
    ∀ (t : List (κ × β)) (k k' : κ), k' ≠ k →
      lookupD (updateEntry init f t k) k' d = lookupD t k' d
  | [], k, k', h => by
    have h' : k ≠ k' := Ne.symm h
    simp [lookupD, updateEntry, h']
  | (k₀, v) :: rest, k, k', h => by
    by_cases h0 : k₀ = k
    · subst h0
      have h' : k₀ ≠ k' := Ne.symm h
      simp [lookupD, updateEntry, h']
    · by_cases h1 : k₀ = k'
      · subst h1
        simp [lookupD, updateEntry, h0]
      · simp [lookupD, updateEntry, h0, h1, lookupD_updateEntry_ne init d f rest k k' h]

/-- Reading one action's value out of a two-action row `{0: ·, 1: ·}`. -/
def pairGet {β : Type} (p : β × β) (a : Fin 2) : β :=
  if a = 0 then p.1 else p.2

/-- Writing one action's value into a two-action row. -/
def pairSet {β : Type} (p : β × β) (a : Fin 2) (v : β) : β × β :=
  if a = 0 then (v, p.2) else (p.1, v)

lemma pairGet_pairSet_self {β : Type} (p : β × β) (a : Fin 2) (v : β) :
    pairGet (pairSet p a v) a = v := by
  fin_cases a <;> simp [pairGet, pairSet]

lemma pairGet_pairSet_ne {β : Type} (p : β × β) (a b : Fin 2) (v : β) (h : b ≠ a) :
    pairGet (pairSet p a v) b = pairGet p b := by
  fin_cases a <;> fin_cases b <;> simp_all [pairGet, pairSet]

/-! ## Monte Carlo agent (`rl/tabular.py`) -/

namespace MonteCarlo

/-- The Q-table: a dict from state key to the row `{0: q₀, 1: q₁}`.
The state-key type is kept abstract (the agent keys on the 5-tuple
`(player_total, usable_ace, dealer_card, hand_count, deck_composition)`,
but nothing in the update depends on its shape). -/
abbrev QTable (κ : Type) := List (κ × (ℚ × ℚ))

/-- `self.q_table[state][action]`, with the missing-state row
`{0: 0.0, 1: 0.0}`. -/
def getQ {κ : Type} [DecidableEq κ] (q : QTable κ) (s : κ) (a : Fin 2) : ℚ :=
  pairGet (lookupD q s (0, 0)) a

/-- Write `q_table[state][action] = v`, materialising the row
`{0: 0.0, 1: 0.0}` first when the state is missing (the
`if state not in self.q_table` guard of `update_q_table`). -/
def setQ {κ : Type} [DecidableEq κ] (q : QTable κ) (s : κ) (a : Fin 2) (v : ℚ) : QTable κ :=
  updateEntry (0, 0) (fun p => pairSet p a v) q s

/-- The body of `MonteCarloAgent.update_q_table`'s loop over
`reversed(self.episode)`: accumulate `g = reward + gamma * g`, skip
state-action pairs already in `visited_state_actions`, and otherwise set
`q_table[state][action] += (g - old_value) / 1`. -/
def updateLoop {κ : Type} [DecidableEq κ] (γ : ℚ) :
    List (κ × Fin 2 × ℚ) → List (κ × Fin 2) → ℚ → QTable κ → QTable κ
  | [], _, _, q => q
  | (s, a, r) :: rest, visited, g, q =>
    let g' := r + γ * g
    if (s, a) ∈ visited then updateLoop γ rest visited g' q
    else
      let oldValue := getQ q s a
      updateLoop γ rest ((s, a) :: visited) g' (setQ q s a (oldValue + (g' - oldValue) / 1))

/-- `MonteCarloAgent.update_q_table`: process the recorded episode in
reverse with `g = 0` and an empty visited set. -/
def updateQTable {κ : Type} [DecidableEq κ] (γ : ℚ) (episode : List (κ × Fin 2 × ℚ))
    (q : QTable κ) : QTable κ :=
  updateLoop γ episode.reverse [] 0 q

/-- The discounted return accumulated at the first position of `(s', a')`
in a (already reversed) trace, starting the accumulator at `g`. -/
def firstReturn {κ : Type} [DecidableEq κ] (γ : ℚ) :
    ℚ → List (κ × Fin 2 × ℚ) → κ → Fin 2 → Option ℚ
  | _, [], _, _ => none
  | g, (s, a, r) :: rest, s', a' =>
    let g' := r + γ * g
    if s = s' ∧ a = a' then some g' else firstReturn γ g' rest s' a'

lemma getQ_setQ_self {κ : Type} [DecidableEq κ] (q : QTable κ) (s : κ) (a : Fin 2) (v : ℚ) :
    getQ (setQ q s a v) s a = v := by
  unfold getQ setQ
  rw [lookupD_updateEntry_self]
  exact pairGet_pairSet_self _ _ _

lemma getQ_setQ_ne {κ : Type} [DecidableEq κ] (q : QTable κ) (s s' : κ) (a a' : Fin 2) (v : ℚ)
    (h : ¬(s' = s ∧ a' = a)) : getQ (setQ q s a v) s' a' = getQ q s' a' := by
  unfold getQ setQ
  by_cases hs : s' = s
  · subst hs
    have ha : a' ≠ a := fun hh => h ⟨rfl, hh⟩
    rw [lookupD_updateEntry_self]
    exact pairGet_pairSet_ne _ _ _ _ ha
  · rw [lookupD_updateEntry_ne _ _ _ _ _ _ hs]

/-- Invariant of the reverse pass: the final value of any pair is its value
before the pass if the pair was already marked visited, else the return at
its first occurrence in the remaining trace, else its previous value. -/
lemma updateLoop_getQ {κ : Type} [DecidableEq κ] (γ : ℚ) :
    ∀ (l : List (κ × Fin 2 × ℚ)) (visited : List (κ × Fin 2)) (g : ℚ) (q : QTable κ)
      (s : κ) (a : Fin 2),
      getQ (updateLoop γ l visited g q) s a =
        if (s, a) ∈ visited then getQ q s a
        else (firstReturn γ g l s a).getD (getQ q s a)
  | [], visited, g, q, s, a => by
    simp only [updateLoop, firstReturn, Option.getD_none]
    split <;> rfl
  | (s₀, a₀, r) :: rest, visited, g, q, s, a => by
    simp only [updateLoop, firstReturn]
    by_cases hmem : (s₀, a₀) ∈ visited
    · rw [if_pos hmem, updateLoop_getQ γ rest visited _ q s a]
      by_cases hsa : (s, a) ∈ visited
      · rw [if_pos hsa, if_pos hsa]
      · rw [if_neg hsa, if_neg hsa]
        have hne : ¬(s₀ = s ∧ a₀ = a) := by
          rintro ⟨rfl, rfl⟩
          exact hsa hmem
        rw [if_neg hne]
    · rw [if_neg hmem]
      have hval : getQ q s₀ a₀ + (r + γ * g - getQ q s₀ a₀) / 1 = r + γ * g := by ring
      rw [hval, updateLoop_getQ γ rest ((s₀, a₀) :: visited) _ _ s a]
      by_cases heq : s₀ = s ∧ a₀ = a
      · obtain ⟨rfl, rfl⟩ := heq
        have hsa : ¬((s₀, a₀) ∈ visited) := hmem
        rw [if_pos (List.mem_cons_self _ _), if_neg hsa, if_pos ⟨rfl, rfl⟩,
          getQ_setQ_self, Option.getD_some]
      · have hgq : getQ (setQ q s₀ a₀ (r + γ * g)) s a = getQ q s a := by
          apply getQ_setQ_ne
          intro hh
          exact heq ⟨hh.1.symm, hh.2.symm⟩
        by_cases hsa : (s, a) ∈ visited
        · have : (s, a) ∈ (s₀, a₀) :: visited := List.mem_cons_of_mem _ hsa
          rw [if_pos this, if_pos hsa, hgq]
        · have hnc : ¬((s, a) ∈ (s₀, a₀) :: visited) := by
            intro hc
            rcases List.mem_cons.mp hc with hc | hc
            · have := Prod.mk.injEq s a s₀ a₀ ▸ hc
              exact heq ⟨(Prod.mk.inj hc).1.symm, (Prod.mk.inj hc).2.symm⟩
            · exact hsa hc
          rw [if_neg hnc, if_neg hsa, if_neg heq, hgq]

/-- C5: the Monte Carlo update walks the recorded episode in reverse
accumulating `G = reward + γ·G` from `G = 0`, and the value it leaves at
every state-action pair is exactly the return `G` at the pair's FIRST
encounter of that reverse pass (a pair occurring several times is written
once, with that first-encounter return); pairs not in the episode keep
their previous value. -/
theorem mc_first_visit_update {κ : Type} [DecidableEq κ] (γ : ℚ)
    (episode : List (κ × Fin 2 × ℚ)) (q : QTable κ) (s : κ) (a : Fin 2) :
    getQ (updateQTable γ episode q) s a =
      (firstReturn γ 0 episode.reverse s a).getD (getQ q s a) := by
  unfold updateQTable
  rw [updateLoop_getQ]
  rfl

end MonteCarlo

/-! ## SARSA agent (`rl/sarsa.py`) -/

namespace Sarsa

/-- `self.q_table = defaultdict(lambda: {0: 0.0, 1: 0.0})`, keyed on the
coarsened 3-tuple `(max(player_total, 12), usable_ace, dealer_card)`.  The
key type is kept abstract; nothing in the update depends on its shape. -/
abbrev QTable (κ : Type) := List (κ × (ℚ × ℚ))

/-- `self.state_action_counts = defaultdict(lambda: {0: 0, 1: 0})`. -/
abbrev Counts (κ : Type) := List (κ × (ℕ × ℕ))

/-- `defaultdict` read of `q_table[state][action]` (default row 0.0/0.0). -/
def getQ {κ : Type} [DecidableEq κ] (q : QTable κ) (s : κ) (a : Fin 2) : ℚ :=
  pairGet (lookupD q s (0, 0)) a

def setQ {κ : Type} [DecidableEq κ] (q : QTable κ) (s : κ) (a : Fin 2) (v : ℚ) : QTable κ :=
  updateEntry (0, 0) (fun p => pairSet p a v) q s

/-- `defaultdict` read of `state_action_counts[state][action]`. -/
def getCount {κ : Type} [DecidableEq κ] (c : Counts κ) (s : κ) (a : Fin 2) : ℕ :=
  pairGet (lookupD c s (0, 0)) a

def setCount {κ : Type} [DecidableEq κ] (c : Counts κ) (s : κ) (a : Fin 2) (n : ℕ) : Counts κ :=
  updateEntry (0, 0) (fun p => pairSet p a n) c s

/-- `dynamic_alpha = 1 / (1 + self.state_action_counts[state][action])`,
as a function of the (already incremented) visit count. -/
def dynamicAlpha (visits : ℕ) : ℚ := 1 / (1 + (visits : ℚ))

/-- `SarsaAgent.update_q_table`: increment the visit count of `(s, a)`,
derive the dynamic learning rate from the incremented count, and apply
`q[s][a] += alpha * (reward + gamma * q[s'][a'] - q[s][a])` (both Q-reads
happen before the write, as in the source). -/
def updateQTable {κ : Type} [DecidableEq κ] (γ : ℚ) (q : QTable κ) (counts : Counts κ)
    (s : κ) (a : Fin 2) (r : ℚ) (s' : κ) (a' : Fin 2) : QTable κ × Counts κ :=
  let counts' := setCount counts s a (getCount counts s a + 1)
  let α := dynamicAlpha (getCount counts' s a)
  let currentQ := getQ q s a
  let nextQ := getQ q s' a'
  (setQ q s a (currentQ + α * (r + γ * nextQ - currentQ)), counts')

lemma getCount_setCount_self {κ : Type} [DecidableEq κ] (c : Counts κ) (s : κ) (a : Fin 2)
    (n : ℕ) : getCount (setCount c s a n) s a = n := by
  unfold getCount setCount
  rw [lookupD_updateEntry_self]
  exact pairGet_pairSet_self _ _ _

lemma getCount_setCount_ne {κ : Type} [DecidableEq κ] (c : Counts κ) (s s' : κ) (a a' : Fin 2)
    (n : ℕ) (h : ¬(s' = s ∧ a' = a)) : getCount (setCount c s a n) s' a' = getCount c s' a' := by
  unfold getCount setCount
  by_cases hs : s' = s
  · subst hs
    have ha : a' ≠ a := fun hh => h ⟨rfl, hh⟩
    rw [lookupD_updateEntry_self]
    exact pairGet_pairSet_ne _ _ _ _ ha
  · rw [lookupD_updateEntry_ne _ _ _ _ _ _ hs]

lemma getQ_setQ_same {κ : Type} [DecidableEq κ] (q : QTable κ) (s : κ) (a : Fin 2) (v : ℚ) :
    getQ (setQ q s a v) s a = v := by
  unfold getQ setQ
  rw [lookupD_updateEntry_self]
  exact pairGet_pairSet_self _ _ _

end Sarsa

/-- C8: every SARSA update first increments the visit count of the updated
pair (all other counts unchanged, so counts never decrease and are never
reset), applies exactly the learning rate `1 / (1 + visits(s,a))` computed
from the incremented count, and that rate is strictly decreasing in the
visit count with limit 0. -/
theorem sarsa_dynamic_alpha_update {κ : Type} [DecidableEq κ] (γ : ℚ)
    (q : Sarsa.QTable κ) (counts : Sarsa.Counts κ) (s : κ) (a : Fin 2) (r : ℚ)
    (s' : κ) (a' : Fin 2) :
    Sarsa.getCount (Sarsa.updateQTable γ q counts s a r s' a').2 s a
        = Sarsa.getCount counts s a + 1 ∧
    (∀ p b, ¬(p = s ∧ b = a) →
      Sarsa.getCount (Sarsa.updateQTable γ q counts s a r s' a').2 p b
        = Sarsa.getCount counts p b) ∧
    (∀ p b, Sarsa.getCount counts p b
        ≤ Sarsa.getCount (Sarsa.updateQTable γ q counts s a r s' a').2 p b) ∧
    Sarsa.getQ (Sarsa.updateQTable γ q counts s a r s' a').1 s a
        = Sarsa.getQ q s a + Sarsa.dynamicAlpha (Sarsa.getCount counts s a + 1) *
            (r + γ * Sarsa.getQ q s' a' - Sarsa.getQ q s a) ∧
    StrictAnti Sarsa.dynamicAlpha ∧
    (∀ ε : ℚ, 0 < ε → ∃ N : ℕ, ∀ n, N ≤ n → Sarsa.dynamicAlpha n < ε) := by
  have hcount : Sarsa.getCount (Sarsa.updateQTable γ q counts s a r s' a').2 s a
      = Sarsa.getCount counts s a + 1 := by
    simp only [Sarsa.updateQTable]
    exact Sarsa.getCount_setCount_self _ _ _ _
  refine ⟨hcount, ?_, ?_, ?_, ?_, ?_⟩
  · intro p b hne
    simp only [Sarsa.updateQTable]
    exact Sarsa.getCount_setCount_ne _ _ _ _ _ _ hne
  · intro p b
    by_cases hpb : p = s ∧ b = a
    · obtain ⟨rfl, rfl⟩ := hpb
      rw [hcount]
      exact Nat.le_succ _
    · simp only [Sarsa.updateQTable]
      rw [Sarsa.getCount_setCount_ne _ _ _ _ _ _ hpb]
  · simp only [Sarsa.updateQTable]
    rw [Sarsa.getCount_setCount_self, Sarsa.getQ_setQ_same]
  · intro m n hmn
    unfold Sarsa.dynamicAlpha
    apply one_div_lt_one_div_of_lt
    · positivity
    · exact add_lt_add_left (by exact_mod_cast hmn) 1
  · intro ε hε
    refine ⟨⌈ε⁻¹⌉₊, fun n hn => ?_⟩
    unfold Sarsa.dynamicAlpha
    rw [div_lt_iff₀ (by positivity)]
    have h1 : (ε⁻¹ : ℚ) ≤ (⌈ε⁻¹⌉₊ : ℚ) := Nat.le_ceil _
    have h2 : ((⌈ε⁻¹⌉₊ : ℕ) : ℚ) ≤ (n : ℚ) := by exact_mod_cast hn
    have h3 : ε * ε⁻¹ = 1 := mul_inv_cancel₀ (ne_of_gt hε)
    nlinarith [mul_le_mul_of_nonneg_left (h1.trans h2) hε.le]

/-- Witness for C8: the incremented-count conjunct evaluated on concrete
tables and keys. -/
theorem sarsa_dynamic_alpha_update_wit :
    Sarsa.getCount
        (Sarsa.updateQTable (9 / 10) ([] : Sarsa.QTable ℕ) [] 3 0 1 4 1).2 3 0
      = Sarsa.getCount ([] : Sarsa.Counts ℕ) 3 0 + 1 :=
  (sarsa_dynamic_alpha_update (9 / 10) [] [] 3 0 1 4 1).1

/-! ## Epsilon decay (end of each training episode, both agents) -/

namespace MonteCarlo

/-- `rl/tabular.py`, `train`: after each episode,
`self.epsilon = max(self.min_epsilon, self.epsilon * self.epsilon_decay)`. -/
def decayEpsilon (minEpsilon epsilonDecay eps : ℚ) : ℚ :=
  max minEpsilon (eps * epsilonDecay)

end MonteCarlo

namespace Sarsa

/-- `rl/sarsa.py`, `train`: after each episode,
`self.epsilon = max(self.min_epsilon, self.epsilon * self.epsilon_decay)`. -/
def decayEpsilon (minEpsilon epsilonDecay eps : ℚ) : ℚ :=
  max minEpsilon (eps * epsilonDecay)

end Sarsa

/-- C9: both agents decay the exploration rate after every completed episode
with the same rule `ε ← max(min_epsilon, ε × epsilon_decay)`; iterating it
over the episodes of a run (for the standard parameter regime
`0 ≤ min_epsilon ≤ ε₀` and `0 ≤ epsilon_decay ≤ 1`, which holds for every
configuration the repository uses) the rate never falls below `min_epsilon`
and never increases from one episode to the next. -/
theorem epsilon_decay_schedule (m d e0 : ℚ) (hm : 0 ≤ m) (hme : m ≤ e0)
    (_hd0 : 0 ≤ d) (hd1 : d ≤ 1) :
    (∀ x, Sarsa.decayEpsilon m d x = MonteCarlo.decayEpsilon m d x) ∧
    (∀ n : ℕ, m ≤ (MonteCarlo.decayEpsilon m d)^[n] e0) ∧
    (∀ n : ℕ, (MonteCarlo.decayEpsilon m d)^[n + 1] e0 ≤ (MonteCarlo.decayEpsilon m d)^[n] e0) := by
  have hfloor : ∀ n : ℕ, m ≤ (MonteCarlo.decayEpsilon m d)^[n] e0 := by
    intro n
    induction n with
    | zero => exact hme
    | succ n _ =>
      rw [Function.iterate_succ_apply']
      exact le_max_left _ _
  have hstep : ∀ y : ℚ, m ≤ y → MonteCarlo.decayEpsilon m d y ≤ y := by
    intro y hy
    have hy0 : 0 ≤ y := hm.trans hy
    have : y * d ≤ y * 1 := mul_le_mul_of_nonneg_left hd1 hy0
    rw [mul_one] at this
    exact max_le hy this
  refine ⟨fun _ => rfl, hfloor, fun n => ?_⟩
  rw [Function.iterate_succ_apply']
  exact hstep _ (hfloor n)

/-- Witness for C9: at the repository's Monte Carlo configuration
(`min_epsilon = 0.2`, `epsilon_decay = 0.995`, initial ε = 1), the rate
after episode 4 is no larger than after episode 3. -/
theorem epsilon_decay_schedule_wit :
    (MonteCarlo.decayEpsilon (2 / 10) (995 / 1000))^[3 + 1] 1 ≤
      (MonteCarlo.decayEpsilon (2 / 10) (995 / 1000))^[3] 1 :=
  (epsilon_decay_schedule (2 / 10) (995 / 1000) 1 (by norm_num) (by norm_num)
    (by norm_num) (by norm_num)).2.2 3

/-- Witness for C5: the Monte Carlo first-visit characterisation evaluated
on a concrete episode in which the pair `(5, 0)` occurs twice. -/
theorem mc_first_visit_update_wit :
    MonteCarlo.getQ
        (MonteCarlo.updateQTable (9 / 10)
          [((5 : ℕ), (0 : Fin 2), (1 : ℚ)), (5, 0, 2), (7, 1, 3)] []) 5 0 =
      (MonteCarlo.firstReturn (9 / 10) 0
          ([((5 : ℕ), (0 : Fin 2), (1 : ℚ)), (5, 0, 2), (7, 1, 3)]).reverse 5 0).getD
        (MonteCarlo.getQ [] 5 0) :=
  MonteCarlo.mc_first_visit_update (9 / 10) _ [] 5 0

/-! ## Value-table persistence (`scripts/tabular.py`) -/

/-- A Python dict key as it occurs in a Q-table row: the agents build rows
with INTEGER action keys `{0: ..., 1: ...}`; JSON object keys are always
strings, so a round-trip through the `json` module turns them into the
strings `"0"`/`"1"`. -/
inductive JKey where
  | int : ℤ → JKey
  | str : String → JKey
deriving DecidableEq

/-- `json.dump`'s rendering of a dict key: integer keys become their
decimal strings, string keys are written as themselves. -/
def jsonKeyStr : JKey → String
  | JKey.int n => toString n
  | JKey.str s => s

/-- The `json.dump` serialisation of the saved table: every inner dict key
is rendered as a string. -/
def jsonDumpTable (t : List (String × List (JKey × ℚ))) : List (String × List (String × ℚ)) :=
  t.map (fun kv => (kv.1, kv.2.map (fun aq => (jsonKeyStr aq.1, aq.2))))

/-- `json.load`: keys of the parsed JSON objects are strings. -/
def jsonLoadTable (t : List (String × List (String × ℚ))) : List (String × List (JKey × ℚ)) :=
  t.map (fun kv => (kv.1, kv.2.map (fun aq => (JKey.str aq.1, aq.2))))

/-- `save_q_table`: `q_table_serializable = {str(k): v for k, v in
q_table.items()}` followed by `json.dump`.  Python's `str` on the state-key
tuple is the parameter `strFn`; the state-key type stays abstract. -/
def saveQTable {κ : Type} (strFn : κ → String) (q : List (κ × List (JKey × ℚ))) :
    List (String × List (String × ℚ)) :=
  jsonDumpTable (q.map (fun kv => (strFn kv.1, kv.2)))

/-- `load_q_table`: `json.load` followed by
`{eval(k): v for k, v in ...}`; Python's `eval` (which on `str` renderings
of key tuples is the left inverse of `str`) is the parameter `evalFn`.
Note the inner dicts are taken over from `json.load` unchanged, so their
action keys remain strings. -/
def loadQTable {κ : Type} (evalFn : String → κ) (d : List (String × List (String × ℚ))) :
    List (κ × List (JKey × ℚ)) :=
  (jsonLoadTable d).map (fun kv => (evalFn kv.1, kv.2))

/-- Whenever `evalFn` inverts `strFn` (as Python's `eval` inverts `str` on
these renderings), the round-trip restores every state key exactly but
rewrites every integer action key to its decimal string. -/
lemma loadQTable_saveQTable {κ : Type} (strFn : κ → String) (evalFn : String → κ)
    (h : Function.LeftInverse evalFn strFn) (q : List (κ × List (JKey × ℚ))) :
    loadQTable evalFn (saveQTable strFn q) =
      q.map (fun kv => (kv.1, kv.2.map (fun aq => (JKey.str (jsonKeyStr aq.1), aq.2)))) := by
  unfold loadQTable saveQTable jsonDumpTable jsonLoadTable
  rw [List.map_map, List.map_map, List.map_map]
  apply List.map_congr_left
  intro kv _
  simp [h kv.1]

/-- A small in-memory Q-table exactly as the agent builds it (integer
action keys 0 and 1), with a numeric state key for concreteness. -/
def sampleQTable : List (ℕ × List (JKey × ℚ)) :=
  [(15, [(JKey.int 0, 1 / 2), (JKey.int 1, 4 / 5)])]

/-- Python `eval` restricted to decimal renderings of numeric keys: the
left inverse of `str` on them. -/
def parseNatKey (s : String) : ℕ :=
  s.toList.foldl (fun n c => n * 10 + (c.toNat - 48)) 0

/-- C1 (refuted on the code): saving and re-loading a Q-table does NOT
reproduce identical contents — the state key survives, but the inner
mapping comes back keyed by the strings `"0"`/`"1"` instead of the integer
action indices 0/1, because `json` stringifies the int keys and
`load_q_table` never converts them back. -/
theorem q_table_roundtrip_fails :
    loadQTable (parseNatKey)
        (saveQTable (fun n : ℕ => toString n) sampleQTable) =
      [(15, [(JKey.str "0", 1 / 2), (JKey.str "1", 4 / 5)])] ∧
    loadQTable (parseNatKey)
        (saveQTable (fun n : ℕ => toString n) sampleQTable) ≠
      sampleQTable := by
  have h : loadQTable (parseNatKey)
      (saveQTable (fun n : ℕ => toString n) sampleQTable) =
      [(15, [(JKey.str "0", 1 / 2), (JKey.str "1", 4 / 5)])] := by rfl
  refine ⟨h, ?_⟩
  rw [h]
  simp [sampleQTable]
